import Mathlib

/-!
# Verification of the `pyre` derivative-based regex engine

This file is a shallow embedding, in Lean 4, of the core of the `pyre`
regular-expression engine (`regex.py`, `dfa.py`) and a development settling
the claims of the specification against it.

Modelling conventions:

* A Python `Regex` object is a value of the inductive type `Pyre.Term`.
  The engine interns terms (hash-consing), so object identity coincides with
  structural equality of the construction; we therefore use structural
  equality where the source uses `is` / `==`.  The intern table itself (a
  global cache keyed by flattened argument collections) is not modelled; its
  only observable effect beyond identity is which structurally-equal-up-to-key
  representative is returned, which none of the properties below depend on.
* Display-only attributes (`sym`, `escape`, `id`, `state_number`) are dropped.
  The `group` tuple is kept on the leaves (`RegexSym`, `RegexDot`): those are
  the only terms ever placed in a `derive` accumulator, hence the only terms
  whose `group` attribute is read by `Goto.group`.
* Python `set`s of states are modelled as lists; every consumer of such a
  set (the union of leaf groups, membership tests) is insensitive to order
  and duplication.  Python `dict`s are modelled as association lists in
  insertion order, mirroring the insertion/overwrite discipline of the code.
* `compile` builds, per reachable state, a 256-entry `goto` table whose entry
  for a character `c` is the derivative of the state by the *lowest* character
  of the partition class containing `c` (`chr(charset[0][0])`).  We model the
  table functionally: `gotoOf s c` performs exactly that class lookup and
  derivative.  `dfa_run`'s `state.goto[ord(ch)]` raises `IndexError` for
  code points ≥ 256; the run functions model this with `Except`.
-/

namespace Pyre

/-- The 256-character alphabet: masks are 256-bit integers (`CHARSET_MAX - 1`). -/
def fullMask : Nat := 2 ^ 256 - 1

/-- The regex term algebra: one constructor per `Regex` subclass of `regex.py`.
`sym` carries the semantic mask, the `negate` flag and the capture-group tuple;
`dot` carries the group tuple. -/
inductive Term where
  | empty : Term
  | eps : Term
  | sym (mask : Nat) (negate : Bool) (group : List Nat) : Term
  | dot (group : List Nat) : Term
  | concat (l r : Term) : Term
  | or (l r : Term) : Term
  | xor (l r : Term) : Term
  | and (l r : Term) : Term
  | diff (l r : Term) : Term
  | not (e : Term) : Term
  | star (e : Term) : Term
  | plus (e : Term) : Term
  | opt (e : Term) : Term
  | expr (e : Term) : Term
deriving DecidableEq, Repr

namespace Term

/-- Flag `isempty`: set only on `RegexEmpty`. -/
def isempty : Term → Bool
  | .empty => true
  | _ => false

/-- Flag `isepsilon`: set only on `RegexEpsilon`. -/
def isepsilon : Term → Bool
  | .eps => true
  | _ => false

/-- Flag `isstar`: set only on `RegexStar`. -/
def isstar : Term → Bool
  | .star _ => true
  | _ => false

/-- Flag `isplus`: set only on `RegexPlus`. -/
def isplus : Term → Bool
  | .plus _ => true
  | _ => false

/-- Flag `isdot`: set only on `RegexDot`. -/
def isdot : Term → Bool
  | .dot _ => true
  | _ => false

/-- Flag `isexpr`: set only on `RegexExpr`. -/
def isexpr : Term → Bool
  | .expr _ => true
  | _ => false

/-- Flag `isnot`: set only on `RegexNot`. -/
def isnot : Term → Bool
  | .not _ => true
  | _ => false

/-- Flag `isany`: `RegexNot.__new__` sets it to `expr.isempty`,
`RegexStar.__new__` sets it to `expr.isdot`; everywhere else it is `False`. -/
def isany : Term → Bool
  | .not e => isempty e
  | .star e => isdot e
  | _ => false

/-- Function `Regex.find(expr, (RegexOr, RegexExpr), look)`: descend through `Or` and
`Expr` nodes, succeed if any visited node equals `look`. -/
def findOrExpr : Term → Term → Bool
  | e, look =>
    (match e with
     | .or l r => findOrExpr l look || findOrExpr r look
     | .expr x => findOrExpr x look
     | _ => false) || decide (e = look)

/-- Function `Regex.find(expr, (RegexAnd, RegexExpr), look)`. -/
def findAndExpr : Term → Term → Bool
  | e, look =>
    (match e with
     | .and l r => findAndExpr l look || findAndExpr r look
     | .expr x => findAndExpr x look
     | _ => false) || decide (e = look)

end Term

open Term

/-- Smart constructor `RegexOr.__new__`: subset absorption via `find`, then
`r|⊤=⊤`, `∅|r=r`, `r|∅=r`, else intern the node. -/
def RegexOr (l r : Term) : Term :=
  if findOrExpr l r then l
  else if isany l || isany r then .not .empty
  else if isempty l then r
  else if isempty r then l
  else .or l r

/-- Smart constructor `RegexXor.__new__`: `∅⊕r=r`, `r⊕∅=r`, then the
(ineffective) `all((left.isempty, right.isempty))` test, else intern. -/
def RegexXor (l r : Term) : Term :=
  if isempty l then r
  else if isempty r then l
  else if isempty l && isempty r then .empty
  else .xor l r

/-- Smart constructor `RegexAnd.__new__`: absorption via `find`, `∅&r=∅`,
`⊤&r=r`, `r&⊤=r`, else intern. -/
def RegexAnd (l r : Term) : Term :=
  if findAndExpr l r then l
  else if isempty l || isempty r then .empty
  else if isany l then r
  else if isany r then l
  else .and l r

/-- Smart constructor `RegexNot.__new__`: `¬¬r = r`, else intern. -/
def RegexNot (e : Term) : Term :=
  match e with
  | .not x => x
  | _ => .not e

/-- Smart constructor `RegexDiff.__new__`: `r−r=∅`, `∅−r=∅`, `r−∅=r`,
`⊤−r=¬r`, `r−⊤=∅`, else intern. -/
def RegexDiff (l r : Term) : Term :=
  if l = r then .empty
  else if isempty l then .empty
  else if isempty r then l
  else if isany l then RegexNot r
  else if isany r then .empty
  else .diff l r

/-- Smart constructor `RegexConcat.__new__`: `∅·r=∅`, `r·∅=∅`, `ε·r=r`,
`r·ε=r`, else intern. -/
def RegexConcat (l r : Term) : Term :=
  if isempty l || isempty r then .empty
  else if isepsilon l then r
  else if isepsilon r then l
  else .concat l r

/-- Smart constructor `RegexStar.__new__`: `(r*)*=r*`, `ε*=ε`, `∅*=ε`, else
intern. -/
def RegexStar (e : Term) : Term :=
  if isepsilon e || isstar e then e
  else if isempty e then .eps
  else .star e

/-- Smart constructor `RegexPlus.__new__`: `(r+)+=r+`, else intern. -/
def RegexPlus (e : Term) : Term :=
  if isplus e then e
  else .plus e

/-- Smart constructor `RegexOpt.__new__`: interns as-is. -/
def RegexOpt (e : Term) : Term := .opt e

/-- Smart constructor `RegexExpr.__new__`: `((r))` unwraps to `expr.expr`,
`(ε)=ε` (the per-group epsilon is interned separately in the source but is
behaviourally the plain epsilon), `(∅)=∅`, else intern. -/
def RegexExpr (e : Term) : Term :=
  match e with
  | .expr x => x
  | _ =>
    if isepsilon e then .eps
    else if isempty e then .empty
    else .expr e

/-- Method `nullable()`: structural recursion of `regex.py`.  The base class returns
`RegexEmpty()`; `Epsilon`, `Star`, `Opt` return `RegexEpsilon()`; boolean
nodes rebuild themselves over the children's `nullable()` through the smart
constructors; `Concat` uses `RegexAnd`; `Not` tests `expr.nullable().isepsilon`. -/
def nullable : Term → Term
  | .empty => .empty
  | .eps => .eps
  | .sym _ _ _ => .empty
  | .dot _ => .empty
  | .concat l r => RegexAnd (nullable l) (nullable r)
  | .or l r => RegexOr (nullable l) (nullable r)
  | .xor l r => RegexXor (nullable l) (nullable r)
  | .and l r => RegexAnd (nullable l) (nullable r)
  | .diff l r => RegexDiff (nullable l) (nullable r)
  | .not e => if isepsilon (nullable e) then .empty else .eps
  | .star _ => .eps
  | .plus e => nullable e
  | .opt _ => .eps
  | .expr e => nullable e

/-- Method `isnullable()` ≡ `self.nullable().isepsilon`. -/
def isnullable (t : Term) : Bool := isepsilon (nullable t)

/-- Method `derive(ch, states, negate_states)`: returns the derivative term together
with the contents of the `states` accumulator (a set in the source; modelled
as a list, whose consumers are order- and duplication-insensitive). -/
def derive : Term → Nat → Bool → Term × List Term
  | .empty, _, _ => (.empty, [])
  | .eps, _, _ => (.empty, [])
  | .sym mask neg g, c, negSt =>
    let inSet := mask.testBit c
    let mtch := (!neg && inSet) || (neg && !inSet)
    ((if mtch then .eps else .empty),
     if mtch ≠ negSt then [.sym mask neg g] else [])
  | .dot g, _, negSt => (.eps, if negSt then [] else [.dot g])
  | .concat l r, c, negSt =>
    let dl := derive l c negSt
    let left := RegexConcat dl.1 r
    let s1 := if isempty left then [] else dl.2
    let dr := derive r c negSt
    let right := RegexConcat (nullable l) dr.1
    let s2 := if isempty right then [] else dr.2
    (RegexOr left right, s1 ++ s2)
  | .or l r, c, negSt =>
    let dl := derive l c negSt
    let dr := derive r c negSt
    (RegexOr dl.1 dr.1, dl.2 ++ dr.2)
  | .xor l r, c, negSt =>
    let dl := derive l c negSt
    let dr := derive r c negSt
    (RegexXor dl.1 dr.1, dl.2 ++ dr.2)
  | .and l r, c, negSt =>
    let dl := derive l c negSt
    let dr := derive r c negSt
    (RegexAnd dl.1 dr.1, dl.2 ++ dr.2)
  | .diff l r, c, negSt =>
    let dl := derive l c negSt
    let dr := derive r c (!negSt)
    (RegexDiff dl.1 dr.1, dl.2 ++ dr.2)
  | .not e, c, negSt =>
    let de := derive e c (!negSt)
    (RegexNot de.1, de.2)
  | .star e, c, negSt =>
    let de := derive e c negSt
    (RegexConcat de.1 (.star e), de.2)
  | .plus e, c, negSt =>
    let de := derive e c negSt
    (RegexConcat de.1 (RegexStar e), de.2)
  | .opt e, c, negSt => derive e c negSt
  | .expr e, c, negSt =>
    let de := derive e c negSt
    (RegexExpr de.1, de.2)

/-- Operation `CharSet.__and__`: pairwise intersection, dropping zero masks.  (The
source stores the result in a `set`; the consumers below only look a mask up
by membership of a bit, and the masks of a term's charset are pairwise
disjoint, so list order and duplicates are unobservable.) -/
def csAnd (xs ys : List Nat) : List Nat :=
  xs.flatMap fun i => ys.filterMap fun j =>
    let m := i &&& j
    if m ≠ 0 then some m else none

/-- The `charset` attribute computed by each `__new__`: leaves carry the full
mask or the `[S, Σ∖S]` split; binary boolean nodes intersect pairwise;
`Concat` refines by the right child only when the left is nullable;
wrapper nodes inherit the child's charset. -/
def charsetOf : Term → List Nat
  | .empty => [fullMask]
  | .eps => [fullMask]
  | .dot _ => [fullMask]
  | .sym mask _ _ => [mask, fullMask ^^^ mask]
  | .concat l r =>
    if isepsilon (nullable l) then csAnd (charsetOf l) (charsetOf r)
    else charsetOf l
  | .or l r => csAnd (charsetOf l) (charsetOf r)
  | .xor l r => csAnd (charsetOf l) (charsetOf r)
  | .and l r => csAnd (charsetOf l) (charsetOf r)
  | .diff l r => csAnd (charsetOf l) (charsetOf r)
  | .not e => charsetOf e
  | .star e => charsetOf e
  | .plus e => charsetOf e
  | .opt e => charsetOf e
  | .expr e => charsetOf e

/-- Lowest set bit of a (≤ 256-bit) mask: the representative character
`chr(charset[0][0])` that `compile` uses to compute the transition for a
whole partition class. -/
def lowBit (m : Nat) : Nat :=
  (((List.range 256).find? fun i => m.testBit i)).getD 0

/-- The `goto` table entry for character `c` of the state `s`, as `compile`
populates it: find the partition mask containing `c`, derive by that mask's
lowest character with a fresh accumulator and polarity `False`; characters in
no mask keep the sentinel `Goto(RegexEmpty(), set())`. -/
def gotoOf (s : Term) (c : Nat) : Term × List Term :=
  match (charsetOf s).find? (fun m => m.testBit c) with
  | some m => derive s (lowBit m) false
  | none => (.empty, [])

/-- Attribute `x.group` of an accumulator member: only `RegexSym`/`RegexDot` leaves are
ever added to a `states` accumulator, and they carry their parse-time tuple. -/
def leafGroup : Term → List Nat
  | .sym _ _ g => g
  | .dot g => g
  | _ => []

/-- Property `Goto.group`: the union of the groups of the accumulated states. -/
def groupsOf (states : List Term) : List Nat :=
  (states.map leafGroup).flatten

end Pyre

namespace Pyre

open Term

/-- Structure `GroupInfo` of `dfa.py`: `active` maps gid → start index, `final` maps
gid → finalized `(start, end)` span.  Python dicts are modelled as insertion-
ordered association lists with in-place overwrite. -/
structure GInfo where
  active : List (Nat × Nat)
  final : List (Nat × Nat × Nat)
deriving DecidableEq, Repr

/-- Overwrite-or-append `final[g] = Group(g, s, e)`. -/
def upsertFinal (f : List (Nat × Nat × Nat)) (g s e : Nat) :
    List (Nat × Nat × Nat) :=
  if f.any (fun q => decide (q.1 = g)) then
    f.map fun q => if q.1 = g then (g, s, e) else q
  else f ++ [(g, s, e)]

/-- Method `GroupInfo.step(index, group_set)`: open the groups of `gs` not yet
active at `i`, then close (finalize at end `i`) the active groups absent
from `gs`. -/
def ginfoStep (gi : GInfo) (i : Nat) (gs : List Nat) : GInfo :=
  let act1 := gs.foldl
    (fun a g => if a.any (fun p => decide (p.1 = g)) then a else a ++ [(g, i)])
    gi.active
  let ended := act1.filter fun p => !(gs.any fun g => decide (g = p.1))
  let kept := act1.filter fun p => gs.any fun g => decide (g = p.1)
  { active := kept
    final := ended.foldl (fun f p => upsertFinal f p.1 p.2 i) gi.final }

/-- Method `GroupInfo.close(end_index)`: finalize every still-active group at `e`. -/
def ginfoClose (gi : GInfo) (e : Nat) : GInfo :=
  { active := []
    final := gi.active.foldl (fun f p => upsertFinal f p.1 p.2 e) gi.final }

/-- The loop of `dfa.match` over `dfa_run`: walk the goto tables, dying on an
`isempty` state (`.ok none`), collecting group steps, and erroring on a code
point ≥ 256 (`state.goto[ord(ch)]` raises `IndexError`). -/
def matchLoop (st : Term) (gi : GInfo) (i : Nat) :
    List Nat → Except Unit (Option (Term × GInfo))
  | [] => .ok (some (st, gi))
  | c :: rest =>
    if c < 256 then
      let g := gotoOf st c
      if isempty g.1 then .ok none
      else matchLoop g.1 (ginfoStep gi i (groupsOf g.2)) (i + 1) rest
    else .error ()

/-- Function `dfa.match(expr, string)`: full-string match.  On survival, require the
final state nullable, close active groups at `len(string)`, synthesize group
0 as `(0, len(string))` when absent, and return the gid → span map. -/
def matchFull (r : Term) (s : List Nat) :
    Except Unit (List (Nat × Nat × Nat)) :=
  match matchLoop r ⟨[], []⟩ 0 s with
  | .error _ => .error ()
  | .ok none => .ok []
  | .ok (some (st, gi)) =>
    if isnullable st then
      let gi2 := ginfoClose gi s.length
      .ok (if gi2.final.any (fun q => decide (q.1 = 0)) then gi2.final
           else gi2.final ++ [(0, 0, s.length)])
    else .ok []

/-- Outcome of one inner scan of `dfa.search` from an offset: death at the
`k`-th consumed character, a match closed after the `k`-th consumed
character, end of string, or the out-of-alphabet `IndexError`. -/
inductive RunRes where
  | dead (k : Nat) : RunRes
  | found (k : Nat) (gm : List (Nat × Nat × Nat)) : RunRes
  | eos : RunRes
  | err : RunRes
deriving DecidableEq, Repr

/-- Re-index a `RunRes` of the tail scan by one consumed character. -/
def shiftRes : RunRes → RunRes
  | .dead k => .dead (k + 1)
  | .found k gm => .found (k + 1) gm
  | x => x

/-- The inner `for step in dfa_run(...)` loop of `dfa.search`, shared by the
first-hit and all-matches modes: on each character test dead state first,
then record the group step, then test acceptance (closing groups at
`step.index + 1`).  `i` is the absolute index of the next character; the
returned position `k` is relative to this scan's start. -/
def runFrom (st : Term) (gi : GInfo) (i : Nat) : List Nat → RunRes
  | [] => .eos
  | c :: rest =>
    if c < 256 then
      let g := gotoOf st c
      if isempty g.1 then .dead 0
      else
        let gi2 := ginfoStep gi i (groupsOf g.2)
        if isnullable g.1 then .found 0 (ginfoClose gi2 (i + 1)).final
        else shiftRes (runFrom g.1 gi2 (i + 1) rest)
    else .err

/-- The `while offset < n` loop of `dfa.search` with `all=False`: a dead run
resumes at (death index + 1); a match returns its map; a scan reaching end of
string returns the empty map outright. -/
def searchFirstGo (start : Term) (s : List Nat) (off : Nat) :
    Except Unit (List (Nat × Nat × Nat)) :=
  if _h : off < s.length then
    match runFrom start ⟨[], []⟩ off (s.drop off) with
    | .dead k => searchFirstGo start s (off + k + 1)
    | .found _ gm => .ok gm
    | .eos => .ok []
    | .err => .error ()
  else .ok []
termination_by s.length - off
decreasing_by omega

/-- Function `dfa.search(expr, string)` with `all=False`. -/
def searchFirst (start : Term) (s : List Nat) :
    Except Unit (List (Nat × Nat × Nat)) :=
  searchFirstGo start s 0

/-- Step `all_groups.setdefault(g_id, []).append(span)` of the all-matches accumulator. -/
def upsertAll (acc : List (Nat × List (Nat × Nat))) (g : Nat)
    (sp : Nat × Nat) : List (Nat × List (Nat × Nat)) :=
  if acc.any (fun p => decide (p.1 = g)) then
    acc.map fun p => if p.1 = g then (p.1, p.2 ++ [sp]) else p
  else acc ++ [(g, [sp])]

/-- Merge one match's finalized groups into the all-matches accumulator. -/
def mergeAll (acc : List (Nat × List (Nat × Nat)))
    (gm : List (Nat × Nat × Nat)) : List (Nat × List (Nat × Nat)) :=
  gm.foldl (fun a q => upsertAll a q.1 (q.2.1, q.2.2)) acc

/-- The `while offset < n` loop of `dfa.search` with `all=True`: a dead run
resumes at (death index + 1); a match is merged and the scan resumes at the
match end; a scan reaching end of string stops with the accumulator. -/
def searchAllGo (start : Term) (s : List Nat) (off : Nat)
    (acc : List (Nat × List (Nat × Nat))) :
    Except Unit (List (Nat × List (Nat × Nat))) :=
  if _h : off < s.length then
    match runFrom start ⟨[], []⟩ off (s.drop off) with
    | .dead k => searchAllGo start s (off + k + 1) acc
    | .found k gm => searchAllGo start s (off + k + 1) (mergeAll acc gm)
    | .eos => .ok acc
    | .err => .error ()
  else .ok acc
termination_by s.length - off
decreasing_by all_goals omega

/-- Function `dfa.search(expr, string)` with `all=True`. -/
def searchAll (start : Term) (s : List Nat) :
    Except Unit (List (Nat × List (Nat × Nat))) :=
  searchAllGo start s 0 []

end Pyre

namespace Pyre

open Term

/-- One goto-table transition: the state component of `gotoOf`. -/
def stepState (st : Term) (c : Nat) : Term := (gotoOf st c).1

/-- The DFA state reached from `st` after consuming the characters of `l`
through the goto tables. -/
def runState (st : Term) (l : List Nat) : Term := l.foldl stepState st

/-- Invariant: every active capture group opened strictly before index `i`. -/
def activeBefore (gi : GInfo) (i : Nat) : Prop := ∀ p ∈ gi.active, p.2 < i

/-- Invariant: every finalized span has `start < end`. -/
def finalPos (f : List (Nat × Nat × Nat)) : Prop := ∀ q ∈ f, q.2.1 < q.2.2

/-- Invariant: every span accumulated by the all-matches mode has
`start < end`. -/
def allPos (acc : List (Nat × List (Nat × Nat))) : Prop :=
  ∀ p ∈ acc, ∀ q ∈ p.2, q.1 < q.2

/-- The denotational language of a term over code points `Nat`: the semantic
reference for the specification's talk of "the language of r".  `sym`
accepts the single characters selected by its mask and `negate` flag exactly
as `RegexSym.derive` tests them; `dot` accepts any single code point, as
`RegexDot.derive` consumes unconditionally. -/
def Lang : Term → Language Nat
  | .empty => 0
  | .eps => 1
  | .sym m n _ => {w | ∃ c, w = [c] ∧ m.testBit c ≠ n}
  | .dot _ => {w | ∃ c, w = [c]}
  | .concat l r => Lang l * Lang r
  | .or l r => Lang l + Lang r
  | .xor l r => (Lang l \ Lang r) ⊔ (Lang r \ Lang l)
  | .and l r => Lang l ⊓ Lang r
  | .diff l r => Lang l \ Lang r
  | .not e => (Lang e)ᶜ
  | .star e => KStar.kstar (Lang e)
  | .plus e => Lang e * KStar.kstar (Lang e)
  | .opt e => 1 + Lang e
  | .expr e => Lang e

/-- Literal `a` (code 97) at top nesting level: parse-time group tuple `(0,)`. -/
def symA : Term := .sym (2 ^ 97) false [0]

/-- Literal `b` (code 98) at top nesting level. -/
def symB : Term := .sym (2 ^ 98) false [0]

/-- Literal `c` (code 99) at top nesting level. -/
def symC : Term := .sym (2 ^ 99) false [0]

/-- Literal `z` (code 122) at top nesting level. -/
def symZ : Term := .sym (2 ^ 122) false [0]

/-- A `.` wildcard at top nesting level. -/
def dotT : Term := .dot [0]

/-- Literal `a` inside one capture group, as in the pattern `(a)`:
group tuple `(0, 1)`. -/
def symAG : Term := .sym (2 ^ 97) false [0, 1]

/-- The pattern `a?^b?^.?` (as the parser associates it): its `nullable()`
is the compound term `Xor(Xor(ε,ε),ε)`, whose `isepsilon` flag is false even
though its language does contain the empty string. -/
def xorOpts : Term :=
  RegexXor (RegexXor (RegexOpt symA) (RegexOpt symB)) (RegexOpt dotT)

/-- The pattern `a?^b?^c?`: witness that `nullable()` can return a compound
term and misreport nullability. -/
def xorOptsC : Term :=
  RegexXor (RegexXor (RegexOpt symA) (RegexOpt symB)) (RegexOpt symC)

/-- The pattern `(a?^b?^.?)z?` (without the capture wrapper, which changes
nothing relevant): a compiled pattern whose transition table is built from
the representative character `chr(0)` for the class containing `z`. -/
def c1pat : Term := RegexConcat xorOpts (RegexOpt symZ)

/-- The pattern `(a?^b?^.?)z`. -/
def concatXz : Term := RegexConcat xorOpts symZ

/-- The pattern `~((a?^b?^.?)z) & z?`: its language is exactly `{ε}`, yet
`search` reports a one-character match on the input `z`. -/
def c10pat : Term := RegexAnd (RegexNot concatXz) (RegexOpt symZ)

/-- The pattern `ab`. -/
def patAB : Term := RegexConcat symA symB

/-- The pattern `a~b`. -/
def patANotB : Term := RegexConcat symA (RegexNot symB)

end Pyre

namespace Pyre

open Term

/-- The pattern `a?^b?`: the smallest parser-reachable input on which
`nullable()` returns a term that is neither `Epsilon` nor `Empty`. -/
def xorOptsAB : Term := RegexXor (RegexOpt symA) (RegexOpt symB)

end Pyre

namespace Pyre

open Term

theorem searchFirstGo_ge (start : Term) (s : List Nat) (off : Nat)
    (h : ¬ off < s.length) : searchFirstGo start s off = .ok [] := by
  rw [searchFirstGo]
  simp [h]

theorem searchFirstGo_dead (start : Term) (s : List Nat) (off k : Nat)
    (h : off < s.length)
    (hr : runFrom start ⟨[], []⟩ off (s.drop off) = .dead k) :
    searchFirstGo start s off = searchFirstGo start s (off + k + 1) := by
  rw [searchFirstGo]
  simp only [h, dite_true, hr]

theorem searchFirstGo_found (start : Term) (s : List Nat) (off k : Nat)
    (gm : List (Nat × Nat × Nat)) (h : off < s.length)
    (hr : runFrom start ⟨[], []⟩ off (s.drop off) = .found k gm) :
    searchFirstGo start s off = .ok gm := by
  rw [searchFirstGo]
  simp only [h, dite_true, hr]

theorem searchFirstGo_eos (start : Term) (s : List Nat) (off : Nat)
    (h : off < s.length)
    (hr : runFrom start ⟨[], []⟩ off (s.drop off) = .eos) :
    searchFirstGo start s off = .ok [] := by
  rw [searchFirstGo]
  simp only [h, dite_true, hr]

theorem searchFirstGo_err (start : Term) (s : List Nat) (off : Nat)
    (h : off < s.length)
    (hr : runFrom start ⟨[], []⟩ off (s.drop off) = .err) :
    searchFirstGo start s off = .error () := by
  rw [searchFirstGo]
  simp only [h, dite_true, hr]

theorem searchAllGo_ge (start : Term) (s : List Nat) (off : Nat) (acc : List (Nat × List (Nat × Nat)))
    (h : ¬ off < s.length) : searchAllGo start s off acc = .ok acc := by
  rw [searchAllGo]
  simp [h]

theorem searchAllGo_dead (start : Term) (s : List Nat) (off k : Nat) (acc : List (Nat × List (Nat × Nat)))
    (h : off < s.length)
    (hr : runFrom start ⟨[], []⟩ off (s.drop off) = .dead k) :
    searchAllGo start s off acc = searchAllGo start s (off + k + 1) acc := by
  rw [searchAllGo]
  simp only [h, dite_true, hr]

theorem searchAllGo_found (start : Term) (s : List Nat) (off k : Nat)
    (acc : List (Nat × List (Nat × Nat))) (gm : List (Nat × Nat × Nat))
    (h : off < s.length)
    (hr : runFrom start ⟨[], []⟩ off (s.drop off) = .found k gm) :
    searchAllGo start s off acc = searchAllGo start s (off + k + 1) (mergeAll acc gm) := by
  rw [searchAllGo]
  simp only [h, dite_true, hr]

theorem searchAllGo_eos (start : Term) (s : List Nat) (off : Nat) (acc : List (Nat × List (Nat × Nat)))
    (h : off < s.length)
    (hr : runFrom start ⟨[], []⟩ off (s.drop off) = .eos) :
    searchAllGo start s off acc = .ok acc := by
  rw [searchAllGo]
  simp only [h, dite_true, hr]

theorem searchAllGo_err (start : Term) (s : List Nat) (off : Nat) (acc : List (Nat × List (Nat × Nat)))
    (h : off < s.length)
    (hr : runFrom start ⟨[], []⟩ off (s.drop off) = .err) :
    searchAllGo start s off acc = .error () := by
  rw [searchAllGo]
  simp only [h, dite_true, hr]

end Pyre

namespace Pyre

open Term

theorem shiftRes_eq_err (x : RunRes) : shiftRes x = .err ↔ x = .err := by
  cases x <;> simp [shiftRes]

theorem runFrom_ne_err (l : List Nat) :
    ∀ st gi i, (∀ c ∈ l, c < 256) → runFrom st gi i l ≠ .err := by
  induction l with
  | nil => intro st gi i _ h; simp [runFrom] at h
  | cons c rest ih =>
    intro st gi i hc h
    have hc0 : c < 256 := hc c (by simp)
    rw [runFrom] at h
    simp only [hc0, if_true] at h
    by_cases he : isempty (gotoOf st c).1
    · simp [he] at h
    · simp only [he, Bool.false_eq_true, if_false] at h
      by_cases hn : isnullable (gotoOf st c).1
      · simp [hn] at h
      · simp only [hn, Bool.false_eq_true, if_false, shiftRes_eq_err] at h
        exact ih _ _ _ (fun d hd => hc d (by simp [hd])) h

theorem matchLoop_ok (l : List Nat) :
    ∀ st gi i, (∀ c ∈ l, c < 256) →
    ∃ v, matchLoop st gi i l = .ok v := by
  induction l with
  | nil => intro st gi i _; exact ⟨some (st, gi), rfl⟩
  | cons c rest ih =>
    intro st gi i hc
    have hc0 : c < 256 := hc c (by simp)
    rw [matchLoop]
    simp only [hc0, if_true]
    by_cases he : isempty (gotoOf st c).1
    · exact ⟨none, by simp [he]⟩
    · simp only [he, if_false]
      exact ih _ _ _ (fun d hd => hc d (by simp [hd]))

theorem matchFull_ok (r : Term) (s : List Nat) (hc : ∀ c ∈ s, c < 256) :
    ∃ m, matchFull r s = .ok m := by
  obtain ⟨v, hv⟩ := matchLoop_ok s r ⟨[], []⟩ 0 hc
  rw [matchFull, hv]
  match v with
  | none => exact ⟨[], rfl⟩
  | some (st, gi) =>
    by_cases hn : isnullable st
    · simp only [hn, if_true]
      exact ⟨_, rfl⟩
    · simp only [hn, if_false]
      exact ⟨[], rfl⟩

theorem searchFirstGo_ok (n : Nat) :
    ∀ start s off, s.length - off ≤ n → (∀ c ∈ s, c < 256) →
    ∃ m, searchFirstGo start s off = .ok m := by
  induction n with
  | zero =>
    intro start s off hn _
    exact ⟨[], searchFirstGo_ge start s off (by omega)⟩
  | succ n ih =>
    intro start s off hn hc
    by_cases h : off < s.length
    · have hsub : ∀ c ∈ s.drop off, c < 256 :=
        fun c hcd => hc c (List.mem_of_mem_drop hcd)
      match hr : runFrom start ⟨[], []⟩ off (s.drop off) with
      | .dead k =>
        rw [searchFirstGo_dead start s off k h hr]
        exact ih start s (off + k + 1) (by omega) hc
      | .found k gm =>
        exact ⟨gm, searchFirstGo_found start s off k gm h hr⟩
      | .eos =>
        exact ⟨[], searchFirstGo_eos start s off h hr⟩
      | .err =>
        exact absurd hr (runFrom_ne_err (s.drop off) start ⟨[], []⟩ off hsub)
    · exact ⟨[], searchFirstGo_ge start s off h⟩

theorem searchAllGo_ok (n : Nat) :
    ∀ start s off acc, s.length - off ≤ n → (∀ c ∈ s, c < 256) →
    ∃ m, searchAllGo start s off acc = .ok m := by
  induction n with
  | zero =>
    intro start s off acc hn _
    exact ⟨acc, searchAllGo_ge start s off acc (by omega)⟩
  | succ n ih =>
    intro start s off acc hn hc
    by_cases h : off < s.length
    · have hsub : ∀ c ∈ s.drop off, c < 256 :=
        fun c hcd => hc c (List.mem_of_mem_drop hcd)
      match hr : runFrom start ⟨[], []⟩ off (s.drop off) with
      | .dead k =>
        rw [searchAllGo_dead start s off k acc h hr]
        exact ih start s (off + k + 1) acc (by omega) hc
      | .found k gm =>
        rw [searchAllGo_found start s off k acc gm h hr]
        exact ih start s (off + k + 1) (mergeAll acc gm) (by omega) hc
      | .eos =>
        exact ⟨acc, searchAllGo_eos start s off acc h hr⟩
      | .err =>
        exact absurd hr (runFrom_ne_err (s.drop off) start ⟨[], []⟩ off hsub)
    · exact ⟨acc, searchAllGo_ge start s off acc h⟩

end Pyre

namespace Pyre

open Term

theorem shiftRes_eq_found (x : RunRes) (k : Nat) (gm : List (Nat × Nat × Nat)) :
    shiftRes x = .found (k + 1) gm ↔ x = .found k gm := by
  cases x <;> simp [shiftRes]

theorem runState_cons (st : Term) (c : Nat) (l : List Nat) :
    runState st (c :: l) = runState (stepState st c) l := rfl

theorem runFrom_found_first (l : List Nat) :
    ∀ st gi i k gm, runFrom st gi i l = .found k gm →
      isnullable (runState st (l.take (k + 1))) = true ∧
      ∀ j, j < k →
        isnullable (runState st (l.take (j + 1))) = false ∧
        isempty (runState st (l.take (j + 1))) = false := by
  induction l with
  | nil => intro st gi i k gm h; simp [runFrom] at h
  | cons c rest ih =>
    intro st gi i k gm h
    rw [runFrom] at h
    by_cases hc : c < 256
    · simp only [hc, if_true] at h
      by_cases he : isempty (gotoOf st c).1
      · simp [he] at h
      · simp only [he, Bool.false_eq_true, if_false] at h
        by_cases hn : isnullable (gotoOf st c).1
        · simp only [hn, if_true] at h
          obtain ⟨hk, _⟩ := RunRes.found.inj h
          subst hk
          refine ⟨?_, by omega⟩
          simpa [List.take, runState, runState_cons, stepState] using hn
        · simp only [hn, Bool.false_eq_true, if_false] at h
          match k with
          | 0 =>
            exfalso
            cases hx : runFrom (gotoOf st c).1 (ginfoStep gi i (groupsOf (gotoOf st c).2)) (i + 1) rest <;>
              rw [hx] at h <;> simp [shiftRes] at h
          | k' + 1 =>
            rw [shiftRes_eq_found] at h
            obtain ⟨h1, h2⟩ := ih _ _ _ _ _ h
            constructor
            · simpa [List.take, runState_cons, stepState] using h1
            · intro j hj
              match j with
              | 0 =>
                constructor
                · simpa [List.take, runState, runState_cons, stepState] using hn
                · simpa [List.take, runState, runState_cons, stepState] using he
              | j' + 1 =>
                have := h2 j' (by omega)
                constructor
                · simpa [List.take, runState_cons, stepState] using this.1
                · simpa [List.take, runState_cons, stepState] using this.2
    · simp [hc] at h

end Pyre

namespace Pyre

open Term

theorem upsertFinal_pos (f : List (Nat × Nat × Nat)) (g s e : Nat)
    (hf : finalPos f) (hse : s < e) : finalPos (upsertFinal f g s e) := by
  intro q hq
  rw [upsertFinal] at hq
  by_cases hin : f.any (fun q => decide (q.1 = g))
  · simp only [hin, if_true, List.mem_map] at hq
    obtain ⟨p, hp, hpq⟩ := hq
    by_cases hpg : p.1 = g
    · simp only [hpg, if_true] at hpq
      subst hpq
      exact hse
    · simp only [hpg, if_false] at hpq
      subst hpq
      exact hf p hp
  · simp only [hin, Bool.false_eq_true, if_false] at hq
    rcases List.mem_append.mp hq with hq | hq
    · exact hf q hq
    · simp only [List.mem_singleton] at hq
      subst hq
      exact hse

theorem stepAct_mem (gs : List Nat) (i : Nat) :
    ∀ act p, p ∈ gs.foldl
      (fun a g => if a.any (fun p => decide (p.1 = g)) then a else a ++ [(g, i)])
      act →
    p ∈ act ∨ (p.1 ∈ gs ∧ p.2 = i) := by
  induction gs with
  | nil => intro act p hp; exact .inl hp
  | cons g rest ih =>
    intro act p hp
    rw [List.foldl_cons] at hp
    by_cases hin : act.any (fun p => decide (p.1 = g))
    · simp only [hin, if_true] at hp
      rcases ih act p hp with h | h
      · exact .inl h
      · exact .inr ⟨by simp [h.1], h.2⟩
    · simp only [hin, if_false] at hp
      rcases ih (act ++ [(g, i)]) p hp with h | h
      · rcases List.mem_append.mp h with h | h
        · exact .inl h
        · simp only [List.mem_singleton] at h
          subst h
          exact .inr ⟨by simp, rfl⟩
      · exact .inr ⟨by simp [h.1], h.2⟩

theorem ginfoStep_active (gi : GInfo) (i : Nat) (gs : List Nat)
    (ha : activeBefore gi i) : activeBefore (ginfoStep gi i gs) (i + 1) := by
  intro p hp
  rw [ginfoStep] at hp
  simp only [List.mem_filter] at hp
  rcases stepAct_mem gs i gi.active p hp.1 with h | h
  · exact Nat.lt_succ_of_lt (ha p h)
  · omega

theorem ginfoStep_final (gi : GInfo) (i : Nat) (gs : List Nat)
    (ha : activeBefore gi i) (hf : finalPos gi.final) :
    finalPos (ginfoStep gi i gs).final := by
  rw [ginfoStep]
  simp only []
  have key : ∀ ended : List (Nat × Nat),
      (∀ p ∈ ended, p.2 < i) → ∀ f, finalPos f →
      finalPos (ended.foldl (fun f p => upsertFinal f p.1 p.2 i) f) := by
    intro ended
    induction ended with
    | nil => intro _ f hf2; exact hf2
    | cons p rest ih =>
      intro hlt f hf2
      rw [List.foldl_cons]
      exact ih (fun q hq => hlt q (by simp [hq]))
        _ (upsertFinal_pos f p.1 p.2 i hf2 (hlt p (by simp)))
  apply key _ _ _ hf
  intro p hp
  simp only [List.mem_filter] at hp
  rcases stepAct_mem gs i gi.active p hp.1 with h | h
  · exact ha p h
  · exfalso
    have h2 := hp.2
    simp only [Bool.not_eq_true', List.any_eq_false] at h2
    have := h2 p.1 h.1
    simp at this

theorem ginfoClose_final (gi : GInfo) (e : Nat)
    (ha : ∀ p ∈ gi.active, p.2 < e) (hf : finalPos gi.final) :
    finalPos (ginfoClose gi e).final := by
  rw [ginfoClose]
  simp only []
  have key : ∀ act : List (Nat × Nat),
      (∀ p ∈ act, p.2 < e) → ∀ f, finalPos f →
      finalPos (act.foldl (fun f p => upsertFinal f p.1 p.2 e) f) := by
    intro act
    induction act with
    | nil => intro _ f hf2; exact hf2
    | cons p rest ih =>
      intro hlt f hf2
      rw [List.foldl_cons]
      exact ih (fun q hq => hlt q (by simp [hq]))
        _ (upsertFinal_pos f p.1 p.2 e hf2 (hlt p (by simp)))
  exact key _ ha _ hf

theorem runFrom_found_pos (l : List Nat) :
    ∀ st gi i k gm, activeBefore gi i → finalPos gi.final →
      runFrom st gi i l = .found k gm → finalPos gm := by
  induction l with
  | nil => intro st gi i k gm _ _ h; simp [runFrom] at h
  | cons c rest ih =>
    intro st gi i k gm ha hf h
    rw [runFrom] at h
    by_cases hc : c < 256
    · simp only [hc, if_true] at h
      by_cases he : isempty (gotoOf st c).1
      · simp [he] at h
      · simp only [he, Bool.false_eq_true, if_false] at h
        by_cases hn : isnullable (gotoOf st c).1
        · simp only [hn, if_true] at h
          obtain ⟨_, hgm⟩ := RunRes.found.inj h
          subst hgm
          exact ginfoClose_final _ _
            (ginfoStep_active gi i _ ha)
            (ginfoStep_final gi i _ ha hf)
        · simp only [hn, Bool.false_eq_true, if_false] at h
          match k with
          | 0 =>
            exfalso
            cases hx : runFrom (gotoOf st c).1 (ginfoStep gi i (groupsOf (gotoOf st c).2)) (i + 1) rest <;>
              rw [hx] at h <;> simp [shiftRes] at h
          | k' + 1 =>
            rw [shiftRes_eq_found] at h
            exact ih _ _ _ _ _ (ginfoStep_active gi i _ ha)
              (ginfoStep_final gi i _ ha hf) h
    · simp [hc] at h

theorem searchFirstGo_pos (n : Nat) :
    ∀ start s off gm, s.length - off ≤ n →
      searchFirstGo start s off = .ok gm → finalPos gm := by
  induction n with
  | zero =>
    intro start s off gm hn h
    rw [searchFirstGo_ge start s off (by omega)] at h
    obtain rfl := Except.ok.inj h
    intro q hq
    simp at hq
  | succ n ih =>
    intro start s off gm hn h
    by_cases hlt : off < s.length
    · match hr : runFrom start ⟨[], []⟩ off (s.drop off) with
      | .dead k =>
        rw [searchFirstGo_dead start s off k hlt hr] at h
        exact ih start s (off + k + 1) gm (by omega) h
      | .found k gm' =>
        rw [searchFirstGo_found start s off k gm' hlt hr] at h
        obtain rfl := Except.ok.inj h
        exact runFrom_found_pos _ _ _ _ _ _ (by intro p hp; simp at hp)
          (by intro q hq; simp at hq) hr
      | .eos =>
        rw [searchFirstGo_eos start s off hlt hr] at h
        obtain rfl := Except.ok.inj h
        intro q hq; simp at hq
      | .err =>
        rw [searchFirstGo_err start s off hlt hr] at h
        exact absurd h (by simp)
    · rw [searchFirstGo_ge start s off hlt] at h
      obtain rfl := Except.ok.inj h
      intro q hq; simp at hq

end Pyre

namespace Pyre

open Term

theorem upsertAll_pos (acc : List (Nat × List (Nat × Nat))) (g : Nat)
    (sp : Nat × Nat) (hacc : allPos acc) (hsp : sp.1 < sp.2) :
    allPos (upsertAll acc g sp) := by
  intro p hp
  rw [upsertAll] at hp
  by_cases hin : acc.any (fun p => decide (p.1 = g))
  · simp only [hin, if_true, List.mem_map] at hp
    obtain ⟨p0, hp0, hpq⟩ := hp
    by_cases hpg : p0.1 = g
    · simp only [hpg, if_true] at hpq
      subst hpq
      intro q hq
      rcases List.mem_append.mp hq with hq | hq
      · exact hacc p0 hp0 q hq
      · simp only [List.mem_singleton] at hq
        subst hq
        exact hsp
    · simp only [hpg, if_false] at hpq
      subst hpq
      exact hacc p0 hp0
  · simp only [hin, Bool.false_eq_true, if_false] at hp
    rcases List.mem_append.mp hp with hp | hp
    · exact hacc p hp
    · simp only [List.mem_singleton] at hp
      subst hp
      intro q hq
      simp only [List.mem_singleton] at hq
      subst hq
      exact hsp

theorem mergeAll_pos (gm : List (Nat × Nat × Nat)) :
    ∀ acc, allPos acc → finalPos gm → allPos (mergeAll acc gm) := by
  induction gm with
  | nil => intro acc hacc _; exact hacc
  | cons q rest ih =>
    intro acc hacc hgm
    rw [mergeAll, List.foldl_cons]
    exact ih _ (upsertAll_pos acc q.1 (q.2.1, q.2.2) hacc (hgm q (by simp)))
      (fun p hp => hgm p (by simp [hp]))

theorem searchAllGo_pos (n : Nat) :
    ∀ start s off acc gm, s.length - off ≤ n → allPos acc →
      searchAllGo start s off acc = .ok gm → allPos gm := by
  induction n with
  | zero =>
    intro start s off acc gm hn hacc h
    rw [searchAllGo_ge start s off acc (by omega)] at h
    obtain rfl := Except.ok.inj h
    exact hacc
  | succ n ih =>
    intro start s off acc gm hn hacc h
    by_cases hlt : off < s.length
    · match hr : runFrom start ⟨[], []⟩ off (s.drop off) with
      | .dead k =>
        rw [searchAllGo_dead start s off k acc hlt hr] at h
        exact ih start s (off + k + 1) acc gm (by omega) hacc h
      | .found k gm' =>
        rw [searchAllGo_found start s off k acc gm' hlt hr] at h
        have hpos : finalPos gm' :=
          runFrom_found_pos _ _ _ _ _ _ (by intro p hp; simp at hp)
            (by intro q hq; simp at hq) hr
        exact ih start s (off + k + 1) (mergeAll acc gm') gm (by omega)
          (mergeAll_pos gm' acc hacc hpos) h
      | .eos =>
        rw [searchAllGo_eos start s off acc hlt hr] at h
        obtain rfl := Except.ok.inj h
        exact hacc
      | .err =>
        rw [searchAllGo_err start s off acc hlt hr] at h
        exact absurd h (by simp)
    · rw [searchAllGo_ge start s off acc hlt] at h
      obtain rfl := Except.ok.inj h
      exact hacc

theorem fullMask_testBit (c : Nat) : fullMask.testBit c = decide (c < 256) := by
  rw [fullMask]
  exact Nat.testBit_two_pow_sub_one 256 c

theorem gotoOf_eps (c : Nat) (hc : c < 256) : gotoOf Term.eps c = (.empty, []) := by
  rw [gotoOf]
  have : (charsetOf Term.eps).find? (fun m => m.testBit c) = some fullMask := by
    simp [charsetOf, List.find?, fullMask_testBit, hc]
  rw [this]
  rfl

theorem runFrom_eps_dead (c : Nat) (rest : List Nat) (gi : GInfo) (i : Nat)
    (hc : c < 256) : runFrom Term.eps gi i (c :: rest) = .dead 0 := by
  rw [runFrom]
  simp [hc, gotoOf_eps c hc, isempty]

theorem searchFirstGo_eps (n : Nat) :
    ∀ s off, s.length - off ≤ n → (∀ c ∈ s, c < 256) →
      searchFirstGo Term.eps s off = .ok [] := by
  induction n with
  | zero =>
    intro s off hn _
    exact searchFirstGo_ge _ s off (by omega)
  | succ n ih =>
    intro s off hn hc
    by_cases hlt : off < s.length
    · match hd : s.drop off with
      | [] =>
        exfalso
        have := List.length_drop off s
        rw [hd] at this
        simp at this
        omega
      | c :: rest =>
        have hcm : c < 256 := by
          apply hc
          have : c ∈ s.drop off := by rw [hd]; simp
          exact List.mem_of_mem_drop this
        have hr : runFrom Term.eps ⟨[], []⟩ off (s.drop off) = .dead 0 := by
          rw [hd]
          exact runFrom_eps_dead c rest _ off hcm
        rw [searchFirstGo_dead _ s off 0 hlt hr]
        exact ih s (off + 1) (by omega) hc
    · exact searchFirstGo_ge _ s off hlt

theorem searchAllGo_eps (n : Nat) :
    ∀ s off, s.length - off ≤ n → (∀ c ∈ s, c < 256) →
      searchAllGo Term.eps s off [] = .ok [] := by
  induction n with
  | zero =>
    intro s off hn _
    exact searchAllGo_ge _ s off [] (by omega)
  | succ n ih =>
    intro s off hn hc
    by_cases hlt : off < s.length
    · match hd : s.drop off with
      | [] =>
        exfalso
        have := List.length_drop off s
        rw [hd] at this
        simp at this
        omega
      | c :: rest =>
        have hcm : c < 256 := by
          apply hc
          have : c ∈ s.drop off := by rw [hd]; simp
          exact List.mem_of_mem_drop this
        have hr : runFrom Term.eps ⟨[], []⟩ off (s.drop off) = .dead 0 := by
          rw [hd]
          exact runFrom_eps_dead c rest _ off hcm
        rw [searchAllGo_dead _ s off 0 [] hlt hr]
        exact ih s (off + 1) (by omega) hc
    · exact searchAllGo_ge _ s off [] hlt

end Pyre

namespace Pyre

open Term

theorem mem_lang_sym_pow (k : Nat) (g : List Nat) (w : List Nat) :
    w ∈ Lang (.sym (2 ^ k) false g) ↔ w = [k] := by
  constructor
  · rintro ⟨c, rfl, hbit⟩
    rw [Nat.testBit_two_pow] at hbit
    simp only [ne_eq, decide_eq_false_iff_not, not_not] at hbit
    rw [hbit]
  · rintro rfl
    refine ⟨k, rfl, ?_⟩
    rw [Nat.testBit_two_pow]
    simp

theorem nil_mem_lang_opt (e : Term) : [] ∈ Lang (.opt e) :=
  (Language.mem_add _ _ _).mpr (.inl ((Language.mem_one _).mpr rfl))

theorem nil_not_mem_lang_xor_opts (x y : Term) :
    [] ∉ Lang (.xor (.opt x) (.opt y)) := by
  intro h
  rcases h with ⟨_, hn⟩ | ⟨_, hn⟩
  · exact hn (nil_mem_lang_opt y)
  · exact hn (nil_mem_lang_opt x)

theorem nil_mem_lang_xor_nested (x y z : Term) :
    [] ∈ Lang (.xor (.xor (.opt x) (.opt y)) (.opt z)) :=
  Or.inr ⟨nil_mem_lang_opt z, nil_not_mem_lang_xor_opts x y⟩

theorem lang_c10pat : Lang c10pat = {[]} := by
  have hxz : ∀ w, w ∈ Lang symZ ↔ w = [122] := mem_lang_sym_pow 122 [0]
  ext w
  constructor
  · rintro ⟨hnot, hopt⟩
    rcases (Language.mem_add _ _ w).mp hopt with h1 | hz
    · exact (Language.mem_one w).mp h1
    · exfalso
      rw [hxz w] at hz
      subst hz
      apply hnot
      have : [122] ∈ Lang xorOpts * Lang symZ :=
        (Language.mem_mul).mpr ⟨[], nil_mem_lang_xor_nested symA symB dotT,
          [122], (hxz [122]).mpr rfl, rfl⟩
      exact this
  · intro hw
    have hw2 : w = [] := hw
    subst hw2
    refine ⟨?_, (Language.mem_add _ _ _).mpr (.inl ((Language.mem_one _).mpr rfl))⟩
    intro hmem
    have hmem2 : [] ∈ Lang xorOpts * Lang symZ := hmem
    rw [Language.mem_mul] at hmem2
    obtain ⟨u, _, v, hv, huv⟩ := hmem2
    rw [hxz v] at hv
    subst hv
    exact absurd huv (by simp)

end Pyre

namespace Pyre

open Term

/-- C8: the claim states that the `RegexXor` smart constructor rewrites
`r⊕r` to the interned `Empty` term.  In the code the test is
`all((left.isempty, right.isempty))`, which can only fire after the `∅⊕r`
and `r⊕∅` rules have already returned, so `a ^ a` is interned as a compound
`Xor` node (with `isempty` false) and reaches the DFA as such. -/
theorem C8_xor_self_not_rewritten :
    RegexXor symA symA = Term.xor symA symA ∧
    isempty (RegexXor symA symA) = false :=
  ⟨rfl, rfl⟩

/-- C9: the claim states that `nullable()` always returns the interned
`Epsilon` or `Empty` term.  On the parser-reachable pattern `a?^b?` it
returns the compound term `Xor(ε, ε)`, which is neither; and on `a?^b?^c?`
the flag test `isnullable` consequently answers `false` although the empty
string is in the pattern's language. -/
theorem C9_nullable_returns_compound :
    nullable xorOptsAB = Term.xor Term.eps Term.eps ∧
    isepsilon (nullable xorOptsAB) = false ∧
    isempty (nullable xorOptsAB) = false ∧
    isnullable xorOptsC = false ∧
    [] ∈ Lang xorOptsC :=
  ⟨rfl, rfl, rfl, rfl, nil_mem_lang_xor_nested symA symB symC⟩

/-- C1: the claimed derivative characterization
`fullmatch(r, c·t) ↔ fullmatch(∂_c(r), t)` fails on the compiled pattern
`(a?^b?^.?)z?` at `c = z`, `t = ε`: the DFA transition for `z` is computed
from the class representative `chr(0)` and leads to an accepting state, so
`match` succeeds on `"z"`, while the derivative by `z` itself is the
non-nullable compound `Or(z?, Xor(Xor(ε,ε),ε))`, so matching it against the
empty string fails. -/
theorem C1_derivative_characterization_violated :
    matchFull c1pat [122] = .ok [(0, 0, 1)] ∧
    matchFull (derive c1pat 122 false).1 [] = .ok [] :=
  ⟨rfl, rfl⟩

/-- C5: the claim states that every successful entry point returns a map
from gids to *lists* of spans and that the empty map is returned exactly
when there is no match.  `match` maps each gid to a single bare span pair
(here `(a)` on `"a"` yields `0 ↦ (0,1)`, `1 ↦ (0,1)`, where the repository's
own tests expect `[(0,1)]`), and first-hit `search` returns the empty map on
the input `"ab"` for the pattern `~a` even though `"ab"` is in the
pattern's language (the accepting scan finalizes no group). -/
theorem C5_groupmap_shape_violated :
    matchFull (RegexExpr symAG) [97] = .ok [(0, 0, 1), (1, 0, 1)] ∧
    searchFirst (RegexNot symA) [97, 98] = .ok [] ∧
    [97, 98] ∈ Lang (RegexNot symA) := by
  refine ⟨rfl, ?_, ?_⟩
  · exact searchFirstGo_found (RegexNot symA) [97, 98] 0 1 [] (by norm_num)
      (by rfl)
  · intro h
    exact absurd ((mem_lang_sym_pow 97 [0] [97, 98]).mp h) (by decide)

/-- C6: the claim states that on every successful match group 0 is present
and spans the whole match.  Matching `a~b` against `"abc"` succeeds over the
whole string `(0,3)` — the string is in the pattern's language — but group 0
is closed early by a transition carrying no group events, and the returned
map is `{0 ↦ (0,1)}`, not the full-match span. -/
theorem C6_group0_span_violated :
    matchFull patANotB [97, 98, 99] = .ok [(0, 0, 1)] ∧
    [97, 98, 99] ∈ Lang patANotB ∧
    (1 : Nat) ≠ [97, 98, 99].length := by
  refine ⟨rfl, ?_, by decide⟩
  have : [97, 98, 99] ∈ Lang symA * (Lang symB)ᶜ := by
    rw [Language.mem_mul]
    refine ⟨[97], (mem_lang_sym_pow 97 [0] [97]).mpr rfl, [98, 99], ?_, rfl⟩
    intro h
    exact absurd ((mem_lang_sym_pow 98 [0] [98, 99]).mp h) (by decide)
  exact this

end Pyre

namespace Pyre

open Term

/-- C3 counterexample: for the pattern `a+` on input `"aa"`, first-hit
`search` reports the span `(0,1)` although the pattern accepts the whole
segment `(0,2)` from the same start (as `match` on `"aa"` shows) — the
reported end is not the largest accepting end, and no greedy switch exists. -/
theorem C3_counterexample :
    searchFirst (RegexPlus symA) [97, 97] = .ok [(0, 0, 1)] ∧
    matchFull (RegexPlus symA) [97, 97] = .ok [(0, 0, 2)] := by
  refine ⟨?_, rfl⟩
  exact searchFirstGo_found (RegexPlus symA) [97, 97] 0 0 [(0, 0, 1)]
    (by norm_num) (by rfl)

/-- C3 (amended): the scan that first-hit `search` runs from an offset stops
at the *first* position after which the DFA state is nullable: if the scan
reports a match after consuming `k+1` characters, the state after `k+1`
characters is nullable and no shorter non-empty prefix of the scan reached a
nullable (or dead) state.  `search` therefore returns the shortest accepted
extension, not the longest. -/
theorem C3_search_returns_first_accepting_end (st : Term) (gi : GInfo)
    (i : Nat) (l : List Nat) (k : Nat) (gm : List (Nat × Nat × Nat))
    (h : runFrom st gi i l = .found k gm) :
    isnullable (runState st (l.take (k + 1))) = true ∧
    ∀ j, j < k →
      isnullable (runState st (l.take (j + 1))) = false ∧
      isempty (runState st (l.take (j + 1))) = false :=
  runFrom_found_first l st gi i k gm h

/-- Witness for C3: the `a+` scan over `"aa"` reports a match at `k = 0` and
the state after one character is indeed nullable. -/
theorem C3_search_returns_first_accepting_end_witness :
    runFrom (RegexPlus symA) ⟨[], []⟩ 0 [97, 97] = .found 0 [(0, 0, 1)] ∧
    isnullable (runState (RegexPlus symA) ([97, 97].take 1)) = true :=
  ⟨rfl, (C3_search_returns_first_accepting_end (RegexPlus symA) ⟨[], []⟩ 0
    [97, 97] 0 [(0, 0, 1)] rfl).1⟩

/-- C4 counterexample: the pattern `ab` matches the input `"aab"` starting
at offset 1 (matching `ab` against `"ab"` succeeds), yet first-hit `search`
returns the empty map: the attempt from offset 0 dies at index 1, and the
loop resumes at offset 2, skipping offset 1. -/
theorem C4_counterexample :
    searchFirst patAB [97, 97, 98] = .ok [] ∧
    matchFull patAB [97, 98] = .ok [(0, 0, 2)] := by
  refine ⟨?_, rfl⟩
  show searchFirstGo patAB [97, 97, 98] 0 = .ok []
  rw [searchFirstGo_dead patAB [97, 97, 98] 0 1 (by norm_num) (by rfl)]
  rw [searchFirstGo_dead patAB [97, 97, 98] 2 0 (by norm_num) (by rfl)]
  exact searchFirstGo_ge patAB [97, 97, 98] 3 (by norm_num)

/-- C4 (amended): when the attempt started at offset `off` dies after
consuming `k+1` characters (at absolute index `off + k`), `search` resumes
from offset `off + k + 1` — the index after the death position — not from
`off + 1`; the offsets strictly between `off` and `off + k + 1` are never
tried. -/
theorem C4_retry_resumes_at_death_index (start : Term) (s : List Nat)
    (off k : Nat) (h : off < s.length)
    (hr : runFrom start ⟨[], []⟩ off (s.drop off) = .dead k) :
    searchFirstGo start s off = searchFirstGo start s (off + k + 1) :=
  searchFirstGo_dead start s off k h hr

/-- Witness for C4: on `"aab"` with pattern `ab`, the attempt from offset 0
dies at index 1 and the next attempted offset is 2. -/
theorem C4_retry_resumes_at_death_index_witness :
    (0 : Nat) < [97, 97, 98].length ∧
    searchFirstGo patAB [97, 97, 98] 0 = searchFirstGo patAB [97, 97, 98] 2 :=
  ⟨by norm_num,
   C4_retry_resumes_at_death_index patAB [97, 97, 98] 0 1 (by norm_num)
     (by rfl)⟩

/-- C7 counterexample: matching the pattern `a` against a string containing
the code point 300 raises (`state.goto[ord(ch)]` is an out-of-bounds index
into the 256-entry table), instead of returning a map as the claim states
for "every input string whatsoever". -/
theorem C7_counterexample : matchFull symA [300] = .error () := rfl

/-- C7 (amended): for every compiled pattern and every input over the
0..255 alphabet, `match` and both `search` modes run to completion and
return a map (possibly empty); no error arises. -/
theorem C7_in_alphabet_total (r : Term) (s : List Nat)
    (hc : ∀ c ∈ s, c < 256) :
    (∃ m, matchFull r s = .ok m) ∧
    (∃ m, searchFirst r s = .ok m) ∧
    (∃ m, searchAll r s = .ok m) :=
  ⟨matchFull_ok r s hc,
   searchFirstGo_ok s.length r s 0 (by omega) hc,
   searchAllGo_ok s.length r s 0 [] (by omega) hc⟩

/-- Witness for C7: the amended totality at the pattern `a` and input `"a"`. -/
theorem C7_in_alphabet_total_witness :
    (∀ c ∈ [97], c < 256) ∧ (∃ m, matchFull symA [97] = .ok m) :=
  ⟨by decide, (C7_in_alphabet_total symA [97] (by decide)).1⟩

/-- C10 counterexample: the language of `~((a?^b?^.?)z) & z?` is exactly
`{ε}`, yet first-hit `search` on the input `"z"` reports the one-character
match `{0 ↦ (0,1)}` — so "search returns the empty map for every pattern
whose language contains only the empty string" is false. -/
theorem C10_counterexample :
    Lang c10pat = {[]} ∧
    searchFirst c10pat [122] = .ok [(0, 0, 1)] := by
  refine ⟨lang_c10pat, ?_⟩
  exact searchFirstGo_found c10pat [122] 0 0 [(0, 0, 1)] (by norm_num)
    (by rfl)

/-- C10 (amended): search never reports a zero-length span — every span in a
result of either search mode satisfies `start < end` — and for the interned
`Epsilon` term itself both search modes return the empty map on every input
over the alphabet; but this does not extend to every pattern whose language
is `{ε}` (see the counterexample). -/
theorem C10_spans_positive_and_epsilon_empty :
    (∀ start s gm, searchFirst start s = .ok gm → finalPos gm) ∧
    (∀ start s gml, searchAll start s = .ok gml → allPos gml) ∧
    (∀ s : List Nat, (∀ c ∈ s, c < 256) →
      searchFirst Term.eps s = .ok [] ∧ searchAll Term.eps s = .ok []) := by
  refine ⟨?_, ?_, ?_⟩
  · intro start s gm h
    exact searchFirstGo_pos s.length start s 0 gm (by omega) h
  · intro start s gml h
    exact searchAllGo_pos s.length start s 0 [] gml (by omega)
      (by intro p hp; simp at hp) h
  · intro s hc
    exact ⟨searchFirstGo_eps s.length s 0 (by omega) hc,
           searchAllGo_eps s.length s 0 (by omega) hc⟩

/-- Witness for C10: applied to the search of `a` in `"a"`, whose reported
span `(0,1)` is positive, and to the epsilon pattern on `"ab"`. -/
theorem C10_spans_positive_and_epsilon_empty_witness :
    finalPos [(0, 0, 1)] ∧ searchFirst Term.eps [97, 98] = .ok [] := by
  constructor
  · apply (C10_spans_positive_and_epsilon_empty).1 symA [97]
    exact searchFirstGo_found symA [97] 0 0 [(0, 0, 1)] (by norm_num) (by rfl)
  · exact ((C10_spans_positive_and_epsilon_empty).2.2 [97, 98] (by decide)).1

end Pyre
